import Mathlib

/-!
Shallow embedding of the prediction-evaluation scripts
(`analyze_detailed.py` and `analyze_performance.py`).

Python floats are modelled as exact rationals `ℚ`; `float(...)` / `int(...)`
parsing is modelled by `Option` fields of a raw row (`none` = the key is
missing or the string fails to parse, which in the scripts raises
`KeyError` / `ValueError` and drops the row).  The real-valued square root
inside `statistics.stdev` is modelled with `Real.sqrt`; a `ZeroDivisionError`
raised by a float division is modelled by an `Option` result being `none`.
-/

namespace Analyze

/-- A raw CSV row as seen by `csv.DictReader`: each numeric column is
`none` when the key is missing, `some none` when present but unparsable,
`some (some q)` when it parses to the rational `q`.  The
`realized_ret_30s` column also carries its raw string, because the script
tests the string for emptiness before parsing it. -/
structure RawRow where
  wall_time_iso : Option String
  mid : Option (Option ℚ)
  p_fused : Option (Option ℚ)
  p_fused_cal : Option (Option ℚ)
  p_hcqr : Option (Option ℚ)
  p_lvp : Option (Option ℚ)
  p_rrf : Option (Option ℚ)
  ofi_w : Option (Option ℚ)
  spread : Option (Option ℚ)
  realized_ret_30s : Option (String × Option ℚ)
  realized_up_30s : Option (Option ℤ)
  deriving DecidableEq

/-- The `pred_data` dictionary built by `analyze_detailed.py` for every row
whose mandatory fields all parse. -/
structure Pred where
  timestamp : String
  price : ℚ
  p_fused : ℚ
  p_fused_cal : ℚ
  p_hcqr : ℚ
  p_lvp : ℚ
  p_rrf : ℚ
  ofi : ℚ
  spread : ℚ
  deriving DecidableEq

/-- A resolved prediction: a `Pred` together with the parsed
`realized_ret` / `realized_up` pair. -/
structure RPred extends Pred where
  realized_ret : ℚ
  realized_up : ℤ
  deriving DecidableEq

/-- Collapse presence and parse success of one numeric column. -/
def numOf (f : Option (Option ℚ)) : Option ℚ :=
  f.bind id

/-- The construction of `pred_data` in `analyze_detailed.py`: every
mandatory field must be present and parse, else the row raises and is
skipped. -/
def parseBase (r : RawRow) : Option Pred := do
  let ts ← r.wall_time_iso
  let price ← numOf r.mid
  let pf ← numOf r.p_fused
  let pfc ← numOf r.p_fused_cal
  let ph ← numOf r.p_hcqr
  let pl ← numOf r.p_lvp
  let pr ← numOf r.p_rrf
  let ofi ← numOf r.ofi_w
  let sp ← numOf r.spread
  pure ⟨ts, price, pf, pfc, ph, pl, pr, ofi, sp⟩

/-- The optional second stage of the row loop: if `realized_ret_30s` is a
present, non-blank string, parse it and `realized_up_30s`; any failure
leaves the row unresolved (it stays in `all_predictions` only). -/
def parseResolved (r : RawRow) (p : Pred) : Option RPred :=
  match r.realized_ret_30s with
  | none => none
  | some (s, v) =>
      if s ≠ "" ∧ s.trim ≠ "" then
        match v, r.realized_up_30s with
        | some ret, some (some up) => some { p with realized_ret := ret, realized_up := up }
        | _, _ => none
      else none

/-- The row loop of `analyze_detailed.py`: returns
`(all_predictions, rows_with_returns)` in original row order. -/
def ingest : List RawRow → List Pred × List RPred
  | [] => ([], [])
  | r :: rest =>
      let ih := ingest rest
      match parseBase r with
      | none => ih
      | some p =>
          match parseResolved r p with
          | none => (p :: ih.1, ih.2)
          | some rp => (p :: ih.1, rp :: ih.2)

/-- The directional-correctness condition shared by both scripts:
`(v > 0.5 and up == 1) or (v <= 0.5 and up == 0)`. -/
def isCorrect (v : ℚ) (up : ℤ) : Bool :=
  ((0.5 : ℚ) < v && up == 1) || (v ≤ (0.5 : ℚ) && up == 0)

/-- The `correct` counter of the component loop in `analyze_detailed.py`. -/
def correct (comp : RPred → ℚ) (l : List RPred) : ℕ :=
  (l.filter (fun p => isCorrect (comp p) p.realized_up)).length

/-- The per-component `accuracy = correct / len(rows_with_returns)`. -/
def accuracy (comp : RPred → ℚ) (l : List RPred) : ℚ :=
  (correct comp l : ℚ) / l.length

/-- The per-component Brier score
`sum((p[comp] - p.realized_up)**2) / len(rows_with_returns)`. -/
def brier (comp : RPred → ℚ) (l : List RPred) : ℚ :=
  (l.map (fun p => (comp p - (p.realized_up : ℚ)) ^ 2)).sum / l.length

/-- The market-movement section of `analyze_detailed.py`: guarded by
`if all_predictions:`, it takes `prices[0]` and `prices[-1]` and the
relative change; `none` models the omitted report section. -/
structure MarketMove where
  start_price : ℚ
  end_price : ℚ
  price_change : ℚ
  deriving DecidableEq

/-- The price-movement computation over `all_predictions`. -/
def marketMovement (l : List Pred) : Option MarketMove :=
  match l with
  | [] => none
  | p :: rest =>
      let prices := (p :: rest).map Pred.price
      let start_price := prices.headD 0
      let end_price := prices.getLastD 0
      some ⟨start_price, end_price, (end_price - start_price) / start_price⟩

/-- The `high_buying` regime filter: `p.ofi > 10`. -/
def high_buying (l : List RPred) : List RPred :=
  l.filter (fun p => decide ((10 : ℚ) < p.ofi))

/-- The `high_selling` regime filter: `p.ofi < -10`. -/
def high_selling (l : List RPred) : List RPred :=
  l.filter (fun p => decide (p.ofi < (-10 : ℚ)))

/-- The `neutral` regime filter: `-10 <= p.ofi <= 10`. -/
def neutral (l : List RPred) : List RPred :=
  l.filter (fun p => decide ((-10 : ℚ) ≤ p.ofi ∧ p.ofi ≤ (10 : ℚ)))

lemma bind_fun_none {α β : Type} (x : Option α) :
    (x.bind fun _ => (none : Option β)) = none := by
  cases x <;> rfl

lemma parseResolved_toPred {r : RawRow} {p : Pred} {rp : RPred}
    (h : parseResolved r p = some rp) : rp.toPred = p := by
  unfold parseResolved at h
  split at h
  · exact absurd h (by simp)
  · split at h
    · split at h
      · injection h with h
        rw [← h]
      · exact absurd h (by simp)
    · exact absurd h (by simp)

lemma getLastD_price_map :
    ∀ (rest : List Pred) (p : Pred) (d : ℚ),
      ((p :: rest).map Pred.price).getLastD d =
        ((p :: rest).getLast (List.cons_ne_nil p rest)).price
  | [], p, d => rfl
  | q :: rest, p, d => by
      have ih := getLastD_price_map rest q p.price
      simp only [List.map_cons, List.getLastD_cons] at ih ⊢
      rw [ih, List.getLast_cons (List.cons_ne_nil q rest)]

/-- Claim C5: the resolved predictions form an order-preserving
subsequence of all predictions. -/
theorem C5_resolved_sublist (rows : List RawRow) :
    List.Sublist ((ingest rows).2.map RPred.toPred) (ingest rows).1 := by
  induction rows with
  | nil => simp [ingest]
  | cons r rest ih =>
      cases hb : parseBase r with
      | none => simpa [ingest, hb] using ih
      | some p =>
          cases hr : parseResolved r p with
          | none =>
              simp only [ingest, hb, hr]
              exact List.Sublist.cons p ih
          | some rp =>
              simp only [ingest, hb, hr, List.map_cons]
              rw [parseResolved_toPred hr]
              exact List.Sublist.cons₂ p ih

/-- Claim C6: a row whose mandatory numeric fields include a missing or
unparsable one is dropped from `all_predictions` entirely, so it changes
no computed metric. -/
theorem C6_mandatory_drop (r : RawRow)
    (h : numOf r.mid = none ∨ numOf r.p_fused = none ∨ numOf r.p_fused_cal = none ∨
      numOf r.p_hcqr = none ∨ numOf r.p_lvp = none ∨ numOf r.p_rrf = none ∨
      numOf r.ofi_w = none ∨ numOf r.spread = none) :
    parseBase r = none ∧
      ∀ pre post : List RawRow, ingest (pre ++ r :: post) = ingest (pre ++ post) := by
  have hbase : parseBase r = none := by
    rcases h with h|h|h|h|h|h|h|h <;>
      simp [parseBase, h, bind_fun_none, Option.bind_eq_bind]
  refine ⟨hbase, ?_⟩
  intro pre post
  induction pre with
  | nil => simp [ingest, hbase]
  | cons a pre ih =>
      simp only [List.cons_append, ingest, List.append_eq, ih]

/-- Claim C6 witness: a concrete row with an unparsable `mid` is dropped. -/
theorem C6_mandatory_drop_witness :
    parseBase ⟨some "t", some none, some (some 1), some (some 1), some (some 1),
      some (some 1), some (some 1), some (some 1), some (some 1),
      some ("0.1", some (1/10)), some (some 1)⟩ = none ∧
    ingest [⟨some "t", some none, some (some 1), some (some 1), some (some 1),
      some (some 1), some (some 1), some (some 1), some (some 1),
      some ("0.1", some (1/10)), some (some 1)⟩] = ingest [] := by
  have h := C6_mandatory_drop
    ⟨some "t", some none, some (some 1), some (some 1), some (some 1),
      some (some 1), some (some 1), some (some 1), some (some 1),
      some ("0.1", some (1/10)), some (some 1)⟩ (Or.inl rfl)
  exact ⟨h.1, h.2 [] []⟩

/-- Claim C8: market movement uses the first and last price in sequence
order, with relative change, and is undefined (section omitted) on an
empty prediction list. -/
theorem C8_market_movement (l : List Pred) :
    (∀ h : l ≠ [],
      marketMovement l = some ⟨(l.head h).price, (l.getLast h).price,
        ((l.getLast h).price - (l.head h).price) / (l.head h).price⟩)
    ∧ marketMovement [] = none := by
  refine ⟨?_, rfl⟩
  intro h
  cases l with
  | nil => exact absurd rfl h
  | cons p rest =>
      simp only [marketMovement]
      rw [getLastD_price_map rest p 0]
      simp

/-- Claim C8 witness on a concrete two-record list. -/
theorem C8_market_movement_witness :
    marketMovement [⟨"a", 1, 0, 0, 0, 0, 0, 0, 0⟩, ⟨"b", 2, 0, 0, 0, 0, 0, 0, 0⟩] =
      some ⟨1, 2, (2 - 1) / 1⟩ := by
  have h := (C8_market_movement
    [⟨"a", 1, 0, 0, 0, 0, 0, 0, 0⟩, ⟨"b", 2, 0, 0, 0, 0, 0, 0, 0⟩]).1 (by simp)
  simpa using h

/-- Claim C7: regime classification: HighBuying iff ofi > 10, HighSelling
iff ofi < -10, Neutral iff -10 ≤ ofi ≤ 10; the boundary ofi = 10 is
Neutral and not HighBuying. -/
theorem C7_regimes (l : List RPred) (p : RPred) :
    (p ∈ high_buying l ↔ p ∈ l ∧ (10 : ℚ) < p.ofi)
    ∧ (p ∈ high_selling l ↔ p ∈ l ∧ p.ofi < (-10 : ℚ))
    ∧ (p ∈ neutral l ↔ p ∈ l ∧ ((-10 : ℚ) ≤ p.ofi ∧ p.ofi ≤ (10 : ℚ)))
    ∧ (p.ofi = (10 : ℚ) → ((p ∈ neutral l ↔ p ∈ l) ∧ p ∉ high_buying l)) := by
  refine ⟨?_, ?_, ?_, ?_⟩
  · simp [high_buying, List.mem_filter]
  · simp [high_selling, List.mem_filter]
  · simp [neutral, List.mem_filter]
  · intro h
    constructor
    · simp [neutral, List.mem_filter, h]
    · simp [high_buying, List.mem_filter, h]

/-- Claim C7 witness: a concrete resolved prediction with ofi = 10 is
Neutral and not HighBuying. -/
theorem C7_regimes_witness :
    (⟨⟨"t", 1, 0, 0, 0, 0, 0, 10, 0⟩, 0, 0⟩ ∈
        neutral [⟨⟨"t", 1, 0, 0, 0, 0, 0, 10, 0⟩, 0, 0⟩] ↔
      (⟨⟨"t", 1, 0, 0, 0, 0, 0, 10, 0⟩, 0, 0⟩ : RPred) ∈
        [(⟨⟨"t", 1, 0, 0, 0, 0, 0, 10, 0⟩, 0, 0⟩ : RPred)])
    ∧ (⟨⟨"t", 1, 0, 0, 0, 0, 0, 10, 0⟩, 0, 0⟩ : RPred) ∉
        high_buying [⟨⟨"t", 1, 0, 0, 0, 0, 0, 10, 0⟩, 0, 0⟩] :=
  (C7_regimes [⟨⟨"t", 1, 0, 0, 0, 0, 0, 10, 0⟩, 0, 0⟩]
    ⟨⟨"t", 1, 0, 0, 0, 0, 0, 10, 0⟩, 0, 0⟩).2.2.2 rfl

/-- Claim C1: for every resolved prediction and component field, the
prediction is counted correct iff (value > 0.5 and realizedUp = 1) or
(value ≤ 0.5 and realizedUp = 0); at value exactly 0.5 it is correct
exactly when realizedUp = 0. -/
theorem C1_correct_rule (comp : RPred → ℚ) (p : RPred) (l : List RPred) :
    (isCorrect (comp p) p.realized_up = true ↔
      (((0.5 : ℚ) < comp p ∧ p.realized_up = 1) ∨
        (comp p ≤ (0.5 : ℚ) ∧ p.realized_up = 0)))
    ∧ correct comp (p :: l) =
        correct comp l + (if isCorrect (comp p) p.realized_up then 1 else 0)
    ∧ (comp p = (0.5 : ℚ) →
        (isCorrect (comp p) p.realized_up = true ↔ p.realized_up = 0)) := by
  refine ⟨?_, ?_, ?_⟩
  · simp [isCorrect, decide_eq_true_iff]
  · by_cases h : isCorrect (comp p) p.realized_up = true
    · simp [correct, List.filter_cons, h, Nat.add_comm]
    · simp [correct, List.filter_cons, h]
  · intro h
    rw [h]
    simp [isCorrect]

/-- Claim C1 witness at a concrete resolved prediction with value 0.5. -/
theorem C1_correct_rule_witness :
    isCorrect ((0.5 : ℚ)) (0 : ℤ) = true ↔ (0 : ℤ) = 0 := by
  have h := C1_correct_rule (fun p => p.p_hcqr)
    ⟨⟨"t", 1, 0.5, 0.5, 0.5, 0.5, 0.5, 0, 0⟩, 0, 0⟩ []
  exact h.2.2 rfl

/-- A trade record as built by the trading-simulation loop of
`analyze_detailed.py` (keys `direction`, `confidence`, `return`,
`spread_cost`; `return` is rendered `ret` here). -/
structure Trade where
  direction : String
  confidence : ℚ
  ret : ℚ
  spread_cost : ℚ
  deriving DecidableEq

/-- One iteration of the trading loop: long above 0.55, short below 0.45,
otherwise no trade. -/
def tradeOf (p : RPred) : Option Trade :=
  if (0.55 : ℚ) < p.p_fused_cal then
    some ⟨"long", p.p_fused_cal, p.realized_ret, p.spread / p.price⟩
  else if p.p_fused_cal < (0.45 : ℚ) then
    some ⟨"short", 1 - p.p_fused_cal, -p.realized_ret, p.spread / p.price⟩
  else none

/-- The full trading loop over `rows_with_returns`. -/
def trades (l : List RPred) : List Trade :=
  l.filterMap tradeOf

/-- The list `gross_returns = [t.return for t in trades]`. -/
def gross_returns (ts : List Trade) : List ℚ :=
  ts.map (fun t => t.ret)

/-- The list `costs = [t.spread_cost for t in trades]`. -/
def costs (ts : List Trade) : List ℚ :=
  ts.map (fun t => t.spread_cost)

/-- The list `net_returns = [r - c for r, c in zip(gross_returns, costs)]`. -/
def net_returns (ts : List Trade) : List ℚ :=
  List.zipWith (fun r c => r - c) (gross_returns ts) (costs ts)

/-- Claim C2: per resolved prediction the simulation emits exactly one
long trade above 0.55 (gross return = realized return), exactly one short
trade below 0.45 (gross return negated), no trade in between, always with
cost = spread/price, and net returns are gross minus cost. -/
theorem C2_trading (p : RPred) (l : List RPred) :
    trades (p :: l) = (tradeOf p).toList ++ trades l
    ∧ ((0.55 : ℚ) < p.p_fused_cal →
        tradeOf p = some ⟨"long", p.p_fused_cal, p.realized_ret, p.spread / p.price⟩)
    ∧ (p.p_fused_cal < (0.45 : ℚ) →
        tradeOf p = some ⟨"short", 1 - p.p_fused_cal, -p.realized_ret, p.spread / p.price⟩)
    ∧ ((0.45 : ℚ) ≤ p.p_fused_cal → p.p_fused_cal ≤ (0.55 : ℚ) → tradeOf p = none)
    ∧ ∀ ts : List Trade, net_returns ts = ts.map (fun t => t.ret - t.spread_cost) := by
  refine ⟨?_, ?_, ?_, ?_, ?_⟩
  · cases h : tradeOf p <;> simp [trades, List.filterMap_cons, h]
  · intro h
    rw [tradeOf, if_pos h]
  · intro h
    rw [tradeOf, if_neg (by linarith), if_pos h]
  · intro h1 h2
    rw [tradeOf, if_neg (by linarith), if_neg (by linarith)]
  · intro ts
    induction ts with
    | nil => rfl
    | cons t ts ih =>
        simp only [net_returns, gross_returns, costs, List.map_cons,
          List.zipWith_cons_cons] at ih ⊢
        rw [ih]

/-- Claim C2 witness: the concrete long trade of the spec test vector and
the no-trade record at probability exactly 0.5. -/
theorem C2_trading_witness :
    tradeOf ⟨⟨"t", 1, 0.6, 0.6, 0.6, 0.6, 0.6, 0, 0.0005⟩, 0.001, 1⟩ =
      some ⟨"long", 0.6, 0.001, 0.0005 / 1⟩
    ∧ tradeOf ⟨⟨"t", 1, 0.5, 0.5, 0.5, 0.5, 0.5, 0, 0.0005⟩, 0.001, 1⟩ = none := by
  constructor
  · exact (C2_trading ⟨⟨"t", 1, 0.6, 0.6, 0.6, 0.6, 0.6, 0, 0.0005⟩, 0.001, 1⟩ []).2.1
      (by norm_num)
  · exact (C2_trading ⟨⟨"t", 1, 0.5, 0.5, 0.5, 0.5, 0.5, 0, 0.0005⟩, 0.001, 1⟩ []).2.2.2.1
      (by norm_num) (by norm_num)

/-- The mean of `statistics.mean`. -/
def mean (l : List ℚ) : ℚ :=
  l.sum / l.length

/-- The sample variance underlying `statistics.stdev` (denominator n-1). -/
def sampleVariance (l : List ℚ) : ℚ :=
  (l.map (fun x => (x - mean l) ^ 2)).sum / ((l.length : ℚ) - 1)

/-- The sample standard deviation of `statistics.stdev`. -/
noncomputable def stdev (l : List ℚ) : ℝ :=
  Real.sqrt (sampleVariance l)

/-- The Sharpe expression
`statistics.mean(net) / statistics.stdev(net) if len(net) > 1 else 0`;
`none` models the `ZeroDivisionError` raised when the divisor is zero. -/
noncomputable def sharpe (l : List ℚ) : Option ℝ :=
  if 1 < l.length then
    if stdev l = 0 then none
    else some ((mean l : ℝ) / stdev l)
  else some 0

lemma sampleVariance_nonneg (l : List ℚ) (h : 1 < l.length) :
    0 ≤ sampleVariance l := by
  apply div_nonneg
  · exact List.sum_nonneg (by
      intro x hx
      obtain ⟨y, _, rfl⟩ := List.mem_map.mp hx
      positivity)
  · have h2 : (2 : ℚ) ≤ l.length := by exact_mod_cast h
    linarith

lemma sum_eq_zero_of_nonneg :
    ∀ {l : List ℚ}, (∀ x ∈ l, 0 ≤ x) → l.sum = 0 → ∀ x ∈ l, x = 0 := by
  intro l
  induction l with
  | nil => simp
  | cons a t ih =>
      intro h hs
      have ha : 0 ≤ a := h a (List.mem_cons_self a t)
      have ht : ∀ x ∈ t, 0 ≤ x := fun x hx => h x (List.mem_cons_of_mem a hx)
      have hts : 0 ≤ t.sum := List.sum_nonneg ht
      simp only [List.sum_cons] at hs
      have ha0 : a = 0 := by linarith
      have hts0 : t.sum = 0 := by linarith
      intro x hx
      rcases List.mem_cons.mp hx with rfl | hx
      · exact ha0
      · exact ih ht hts0 x hx

lemma sampleVariance_eq_zero_iff (l : List ℚ) (h : 1 < l.length) :
    sampleVariance l = 0 ↔ ∀ x ∈ l, x = mean l := by
  have hden : ((l.length : ℚ) - 1) ≠ 0 := by
    have h2 : (2 : ℚ) ≤ l.length := by exact_mod_cast h
    linarith
  rw [sampleVariance, div_eq_zero_iff]
  constructor
  · rintro (hs | hd)
    · intro x hx
      have hx2 : (x - mean l) ^ 2 = 0 := by
        refine sum_eq_zero_of_nonneg ?_ hs _ (List.mem_map.mpr ⟨x, hx, rfl⟩)
        intro y hy
        obtain ⟨z, _, rfl⟩ := List.mem_map.mp hy
        positivity
      have hx0 : x - mean l = 0 := (pow_eq_zero_iff two_ne_zero).mp hx2
      linarith
    · exact absurd hd hden
  · intro hall
    left
    have hmap : l.map (fun x => (x - mean l) ^ 2) = l.map (fun _ => 0) := by
      apply List.map_congr_left
      intro x hx
      rw [hall x hx]
      ring
    rw [hmap]
    simp

/-- Claim C3 counterexample: two emitted trades with equal net returns
make the sample standard deviation zero, so the Sharpe expression does
divide by zero (`none` models the raised `ZeroDivisionError`), refuting
that the computation never performs a division by zero. -/
theorem C3_sharpe_counterexample :
    (trades [⟨⟨"t", 1, 0.6, 0.6, 0.6, 0.6, 0.6, 0, 0.0005⟩, 0.001, 1⟩,
        ⟨⟨"t", 1, 0.6, 0.6, 0.6, 0.6, 0.6, 0, 0.0005⟩, 0.001, 1⟩]).length = 2
    ∧ sharpe (net_returns (trades
        [⟨⟨"t", 1, 0.6, 0.6, 0.6, 0.6, 0.6, 0, 0.0005⟩, 0.001, 1⟩,
         ⟨⟨"t", 1, 0.6, 0.6, 0.6, 0.6, 0.6, 0, 0.0005⟩, 0.001, 1⟩])) = none := by
  have htr : trades
      [⟨⟨"t", 1, 0.6, 0.6, 0.6, 0.6, 0.6, 0, 0.0005⟩, 0.001, 1⟩,
       ⟨⟨"t", 1, 0.6, 0.6, 0.6, 0.6, 0.6, 0, 0.0005⟩, 0.001, 1⟩] =
      [⟨"long", 0.6, 0.001, 0.0005⟩, ⟨"long", 0.6, 0.001, 0.0005⟩] := by
    norm_num [trades, tradeOf, List.filterMap_cons]
  have hnet : net_returns [⟨"long", 0.6, 0.001, 0.0005⟩, ⟨"long", 0.6, 0.001, 0.0005⟩] =
      [0.0005, 0.0005] := by
    norm_num [net_returns, gross_returns, costs]
  have hv : sampleVariance [(0.0005 : ℚ), 0.0005] = 0 := by
    norm_num [sampleVariance, mean]
  have hz : stdev [(0.0005 : ℚ), 0.0005] = 0 := by
    rw [stdev, hv]
    simp
  refine ⟨by rw [htr]; rfl, ?_⟩
  rw [htr, hnet]
  simp [sharpe, hz]

/-- Claim C3 as amended: the Sharpe expression is 0 with fewer than two
trades; with at least two trades it divides by zero exactly when all net
returns are equal (to their mean), and otherwise it equals
mean(netReturn) / stdev(netReturn). -/
theorem C3_sharpe_amended (l : List ℚ) :
    (¬ 1 < l.length → sharpe l = some 0)
    ∧ (1 < l.length → (sharpe l = none ↔ ∀ x ∈ l, x = mean l))
    ∧ (1 < l.length → ¬ (∀ x ∈ l, x = mean l) →
        sharpe l = some ((mean l : ℝ) / stdev l)) := by
  by_cases h : 1 < l.length
  · have hchar : stdev l = 0 ↔ ∀ x ∈ l, x = mean l := by
      rw [stdev, Real.sqrt_eq_zero']
      constructor
      · intro hle
        have hge : (0 : ℝ) ≤ (sampleVariance l : ℝ) := by
          exact_mod_cast sampleVariance_nonneg l h
        have hv0 : sampleVariance l = 0 := by exact_mod_cast le_antisymm hle hge
        exact (sampleVariance_eq_zero_iff l h).mp hv0
      · intro hall
        have hv0 : sampleVariance l = 0 := (sampleVariance_eq_zero_iff l h).mpr hall
        rw [hv0]
        simp
    refine ⟨fun hc => absurd h hc, fun _ => ?_, fun _ hne => ?_⟩
    · rw [sharpe, if_pos h]
      by_cases hz : stdev l = 0
      · rw [if_pos hz]
        exact iff_of_true rfl (hchar.mp hz)
      · rw [if_neg hz]
        exact iff_of_false (by simp) (fun hall => hz (hchar.mpr hall))
    · rw [sharpe, if_pos h, if_neg (fun hz => hne (hchar.mp hz))]
  · refine ⟨fun _ => ?_, fun hc => absurd hc h, fun hc => absurd hc h⟩
    rw [sharpe, if_neg h]

/-- Claim C3 amended witness: one trade yields Sharpe 0; two distinct net
returns yield the actual quotient. -/
theorem C3_sharpe_amended_witness :
    sharpe [(0 : ℚ)] = some 0
    ∧ sharpe [(0 : ℚ), 1] = some ((mean [(0 : ℚ), 1] : ℝ) / stdev [(0 : ℚ), 1]) := by
  constructor
  · exact (C3_sharpe_amended [0]).1 (by norm_num)
  · refine (C3_sharpe_amended [0, 1]).2.2 (by norm_num) ?_
    intro hall
    have h0 := hall 0 (by simp)
    have h1 := hall 1 (by simp)
    rw [← h0] at h1
    norm_num at h1

/-- The prediction dictionary built by `analyze_performance.py` for each
row whose four numeric fields parse. -/
structure PPred where
  p_cal : ℚ
  predicted_up : ℤ
  realized_ret : ℚ
  realized_up : ℤ
  correct : Bool
  spread_ticks : ℚ
  deriving DecidableEq

/-- The dictionary construction in the parse loop of
`analyze_performance.py`. -/
def mkPrediction (p_cal realized_ret : ℚ) (realized_up : ℤ) (spread : ℚ) : PPred :=
  ⟨p_cal, if (0.5 : ℚ) < p_cal then 1 else 0, realized_ret, realized_up,
    isCorrect p_cal realized_up, spread / 0.001⟩

/-- Python `int(...)` applied to a float: truncation toward zero. -/
def pyint (q : ℚ) : ℤ :=
  if 0 ≤ q then ⌊q⌋ else ⌈q⌉

/-- The calibration bin index `bin_idx = int(p['p_cal'] * 10)` — note the
absence of any clamping. -/
def binOf (p : PPred) : ℤ :=
  pyint (p.p_cal * 10)

/-- The contents `bins[i]` of the `defaultdict` grouping of the
calibration loop. -/
def binMembers (l : List PPred) (i : ℤ) : List PPred :=
  l.filter (fun p => binOf p == i)

/-- Claim C4: the claim requires bin indices clamped to [0, 9] with
probability 1.0 in bin 9; evaluating the code at that failing input shows
the unclamped index 10 instead. -/
theorem C4_bin_unclamped :
    binOf (mkPrediction 1 0 1 0) = 10 ∧ binOf (mkPrediction 1 0 1 0) ≠ 9 := by
  have h : binOf (mkPrediction 1 0 1 0) = 10 := by
    show pyint ((1 : ℚ) * 10) = 10
    norm_num [pyint]
  exact ⟨h, by rw [h]; norm_num⟩

/-- Claim C10: every parsed prediction lands in exactly one bin, so the
emitted bin counts sum to the number of parsed predictions, even though
probability exactly 1.0 lands in the unclamped bin 10. -/
theorem C10_bins_partition (l : List PPred) :
    (∑ i in (l.map binOf).toFinset, (binMembers l i).length) = l.length
    ∧ (∀ p : PPred, p.p_cal = 1 → binOf p = 10) := by
  constructor
  · have h1 : ∀ i, (binMembers l i).length = (l.map binOf).count i := by
      intro i
      rw [binMembers, ← List.countP_eq_length_filter, List.count_eq_countP,
        List.countP_map]
      rfl
    have h2 : ∑ i in (l.map binOf).toFinset, (l.map binOf).count i =
        (l.map binOf).length := by
      simp
    calc (∑ i in (l.map binOf).toFinset, (binMembers l i).length)
        = ∑ i in (l.map binOf).toFinset, (l.map binOf).count i :=
          Finset.sum_congr rfl (fun i _ => h1 i)
      _ = (l.map binOf).length := h2
      _ = l.length := List.length_map l binOf
  · intro p hp
    show pyint (p.p_cal * 10) = 10
    rw [hp]
    norm_num [pyint]

/-- Claim C10 witness: a singleton list with probability 1.0 has one
emitted bin whose count is the whole list, at index 10. -/
theorem C10_bins_partition_witness :
    (∑ i in ([mkPrediction 1 0 1 0].map binOf).toFinset,
        (binMembers [mkPrediction 1 0 1 0] i).length) = 1
    ∧ binOf (mkPrediction 1 0 1 0) = 10 := by
  have h := C10_bins_partition [mkPrediction 1 0 1 0]
  exact ⟨h.1, h.2 (mkPrediction 1 0 1 0) rfl⟩

/-- Claim C9: with probabilities in [0,1] and outcomes in {0,1}, accuracy
lies in [0,1] and the Brier score is the mean squared error, also in
[0,1]. -/
theorem C9_accuracy_brier (comp : RPred → ℚ) (l : List RPred)
    (hne : l ≠ [])
    (hv : ∀ p ∈ l, 0 ≤ comp p ∧ comp p ≤ 1)
    (hu : ∀ p ∈ l, p.realized_up = 0 ∨ p.realized_up = 1) :
    (0 ≤ accuracy comp l ∧ accuracy comp l ≤ 1)
    ∧ (0 ≤ brier comp l ∧ brier comp l ≤ 1)
    ∧ brier comp l = mean (l.map (fun p => (comp p - (p.realized_up : ℚ)) ^ 2)) := by
  have hlen : 0 < l.length := List.length_pos.mpr hne
  have hlenQ : (0 : ℚ) < l.length := by exact_mod_cast hlen
  have hterm : ∀ p ∈ l, (comp p - (p.realized_up : ℚ)) ^ 2 ≤ 1 := by
    intro p hp
    obtain ⟨h0, h1⟩ := hv p hp
    rcases hu p hp with h | h <;> rw [h] <;> push_cast <;> nlinarith
  refine ⟨⟨?_, ?_⟩, ⟨?_, ?_⟩, ?_⟩
  · exact div_nonneg (Nat.cast_nonneg _) (le_of_lt hlenQ)
  · rw [accuracy, div_le_one hlenQ]
    exact_mod_cast List.length_filter_le _ l
  · apply div_nonneg _ (le_of_lt hlenQ)
    apply List.sum_nonneg
    intro x hx
    obtain ⟨p, _, rfl⟩ := List.mem_map.mp hx
    positivity
  · rw [brier, div_le_one hlenQ]
    have hsum : (l.map (fun p => (comp p - (p.realized_up : ℚ)) ^ 2)).sum ≤
        (l.map (fun p => (comp p - (p.realized_up : ℚ)) ^ 2)).length • (1 : ℚ) := by
      apply List.sum_le_card_nsmul
      intro x hx
      obtain ⟨p, hp, rfl⟩ := List.mem_map.mp hx
      exact hterm p hp
    rw [List.length_map, nsmul_eq_mul, mul_one] at hsum
    exact hsum
  · simp [brier, mean, List.length_map]

/-- Claim C9 witness on a concrete singleton resolved prediction. -/
theorem C9_accuracy_brier_witness :
    0 ≤ accuracy (fun p => p.p_hcqr) [⟨⟨"t", 1, 1, 1, 1, 1, 1, 0, 0⟩, 0, 1⟩]
    ∧ accuracy (fun p => p.p_hcqr) [⟨⟨"t", 1, 1, 1, 1, 1, 1, 0, 0⟩, 0, 1⟩] ≤ 1 :=
  (C9_accuracy_brier (fun p => p.p_hcqr) [⟨⟨"t", 1, 1, 1, 1, 1, 1, 0, 0⟩, 0, 1⟩]
    (by simp) (by norm_num) (by norm_num)).1

end Analyze
